import Mathlib

/-!
Verification of the MambaOut architecture definition
(src/timm/models/mambaout.py) against its specification.

The development shallow-embeds the pieces of the file the claims are
about: the integer channel arithmetic of `GatedConvBlock.__init__`
(lines 170-186), the channel split of `GatedConvBlock.forward`
(lines 188-199), the drop-path schedule of `MambaOut.__init__`
(line 298), the stage construction of `MambaOutStage.__init__`
(lines 218-240), the downsample-module selection (lines 222-226 and
309), the stem construction (lines 26-63 and 296), and the shape
transport of `forward_features` (lines 335-339).

Conventions: Python machine floats are embedded as exact rationals;
Python `int(x)` is truncation toward zero; a tensor's channel axis is a
`List` of rationals where channel contents matter and a natural number
where only the width matters; spatial sizes follow the standard 2D
convolution output-size formula.
-/

namespace MambaOutModel

/-- Python `int()` applied to a rational: truncation toward zero. -/
def pyInt (q : ℚ) : ℤ :=
  if 0 ≤ q then ⌊q⌋ else ⌈q⌉

/-- `hidden = int(expansion_ratio * dim)` — mambaout.py line 172. -/
def gcbHidden (expansion_ratio : ℚ) (dim : ℕ) : ℤ :=
  pyInt (expansion_ratio * dim)

/-- `conv_channels = int(conv_ratio * dim)` — mambaout.py line 175. -/
def gcbConvChannels (conv_ratio : ℚ) (dim : ℕ) : ℤ :=
  pyInt (conv_ratio * dim)

/-- `self.split_indices = (hidden, hidden - conv_channels, conv_channels)`
— mambaout.py line 176. -/
def gcbSplitIndices (expansion_ratio conv_ratio : ℚ) (dim : ℕ) : ℤ × ℤ × ℤ :=
  (gcbHidden expansion_ratio dim,
   gcbHidden expansion_ratio dim - gcbConvChannels conv_ratio dim,
   gcbConvChannels conv_ratio dim)

/-- Modelled from the spec's words (§4.3 step 3): the spec states
`hidden = round(expansion_ratio × dim)`, rounding to the nearest
integer.  Kept separate from `gcbHidden`, which embeds the source, so
the two computations can be compared. -/
def specRoundHidden (expansion_ratio : ℚ) (dim : ℕ) : ℤ :=
  round (expansion_ratio * (dim : ℚ))

/-- `torch.split(x, (s1, s2, s3), dim=-1)` along the channel axis, the
third slice being the remainder — mambaout.py line 192. -/
def torchSplit3 {α : Type} (s1 s2 : ℕ) (xs : List α) :
    List α × List α × List α :=
  (xs.take s1, (xs.drop s1).take s2, (xs.drop s1).drop s2)

theorem pyInt_nonneg_eq_floor {q : ℚ} (h : 0 ≤ q) : pyInt q = ⌊q⌋ := by
  simp [pyInt, h]

theorem pyInt_mono {a b : ℚ} (ha : 0 ≤ a) (hab : a ≤ b) :
    pyInt a ≤ pyInt b := by
  rw [pyInt_nonneg_eq_floor ha, pyInt_nonneg_eq_floor (ha.trans hab)]
  exact Int.floor_le_floor hab

theorem gcbConvChannels_le_hidden {er cr : ℚ} (dim : ℕ)
    (hcr : 0 ≤ cr) (hle : cr ≤ er) :
    gcbConvChannels cr dim ≤ gcbHidden er dim := by
  apply pyInt_mono
  · exact mul_nonneg hcr (Nat.cast_nonneg dim)
  · exact mul_le_mul_of_nonneg_right hle (Nat.cast_nonneg dim)

theorem gcbConvChannels_nonneg {cr : ℚ} (dim : ℕ) (hcr : 0 ≤ cr) :
    0 ≤ gcbConvChannels cr dim := by
  rw [gcbConvChannels, pyInt_nonneg_eq_floor (mul_nonneg hcr (Nat.cast_nonneg dim))]
  exact Int.floor_nonneg.mpr (mul_nonneg hcr (Nat.cast_nonneg dim))

/-- Claim C1: for every `GatedConvBlock` whose ratios satisfy
`0 ≤ conv_ratio ≤ expansion_ratio`, the split of the `2*hidden`
channels produced by the expansion projection is a deterministic,
order-preserving partition into three contiguous slices in fixed order
— gate of size `hidden`, identity-part of size `hidden - conv_channels`,
conv-part of size `conv_channels` — the three sizes sum to `2*hidden`,
and concatenating the slices in order restores the input channels, so
no channel is duplicated or dropped. -/
theorem gatedConvBlock_split_partition (er cr : ℚ) (dim : ℕ)
    (xs : List ℚ) (hcr : 0 ≤ cr) (hle : cr ≤ er)
    (hlen : xs.length = 2 * (gcbHidden er dim).toNat) :
    let h := (gcbHidden er dim).toNat
    let cc := (gcbConvChannels cr dim).toNat
    let parts := torchSplit3 h (h - cc) xs
    parts.1.length = h ∧
    parts.2.1.length = h - cc ∧
    parts.2.2.length = cc ∧
    parts.1 ++ parts.2.1 ++ parts.2.2 = xs ∧
    h + (h - cc) + cc = 2 * h ∧
    gcbSplitIndices er cr dim =
      ((h : ℤ), (h : ℤ) - (cc : ℤ), (cc : ℤ)) := by
  intro h cc parts
  have hcc_le : cc ≤ h := by
    have := gcbConvChannels_le_hidden dim hcr hle
    exact Int.toNat_le_toNat this
  have hh_le : h ≤ xs.length := by omega
  have h1 : parts.1.length = h := by
    simp only [parts, torchSplit3, List.length_take]
    omega
  have h2 : parts.2.1.length = h - cc := by
    simp only [parts, torchSplit3, List.length_take, List.length_drop]
    omega
  have h3 : parts.2.2.length = cc := by
    simp only [parts, torchSplit3, List.length_drop]
    omega
  refine ⟨h1, h2, h3, ?_, by omega, ?_⟩
  · simp only [parts, torchSplit3]
    rw [List.append_assoc, List.take_append_drop, List.take_append_drop]
  · have hcc_int : ((cc : ℤ)) = gcbConvChannels cr dim := by
      simp only [cc]
      exact Int.toNat_of_nonneg (gcbConvChannels_nonneg dim hcr)
    have hh_int : ((h : ℤ)) = gcbHidden er dim := by
      simp only [h]
      refine Int.toNat_of_nonneg ?_
      exact le_trans (gcbConvChannels_nonneg dim hcr)
        (gcbConvChannels_le_hidden dim hcr hle)
    simp only [gcbSplitIndices, hcc_int, hh_int]

/-- Witness for C1: the default configuration `expansion_ratio = 8/3`,
`conv_ratio = 1`, `dim = 3` gives `hidden = 8`, `conv_channels = 3`,
split sizes `(8, 5, 3)`, and the split of a concrete 16-channel list is
a partition. -/
theorem gatedConvBlock_split_partition_witness :
    let xs := List.replicate 16 (0 : ℚ)
    let h := (gcbHidden (8 / 3) 3).toNat
    let cc := (gcbConvChannels 1 3).toNat
    let parts := torchSplit3 h (h - cc) xs
    parts.1.length = h ∧
    parts.2.1.length = h - cc ∧
    parts.2.2.length = cc ∧
    parts.1 ++ parts.2.1 ++ parts.2.2 = xs ∧
    h + (h - cc) + cc = 2 * h ∧
    gcbSplitIndices (8 / 3) 1 3 =
      ((h : ℤ), (h : ℤ) - (cc : ℤ), (cc : ℤ)) := by
  refine gatedConvBlock_split_partition (8 / 3) 1 3
    (List.replicate 16 (0 : ℚ))
    (by norm_num) (by norm_num) ?_
  have h8 : gcbHidden (8 / 3) 3 = 8 := by
    norm_num [gcbHidden, pyInt]
  rw [h8]
  rfl

/-- Claim C2, counterexample: at `dim = 64`, `expansion_ratio = 8/3`
(the default), the source computes `hidden = int(8/3 * 64) = 170` by
truncation, while rounding to the nearest integer as the claim states
gives `round(512/3) = 171`. -/
theorem gcbHidden_not_round_counterexample :
    gcbHidden (8 / 3) 64 = 170 ∧ specRoundHidden (8 / 3) 64 = 171 ∧
    (170 : ℤ) ≠ 171 := by
  refine ⟨?_, ?_, by norm_num⟩
  · norm_num [gcbHidden, pyInt]
  · norm_num [specRoundHidden, round_eq]

/-- Claim C2 (amended): for every `GatedConvBlock`, `hidden` and
`conv_channels` are computed with Python `int()` — truncation toward
zero, which on the nonnegative products is the floor — so
`hidden = ⌊expansion_ratio * dim⌋` and
`conv_channels = ⌊conv_ratio * dim⌋`: each is the greatest integer not
exceeding the product, not the nearest integer. -/
theorem gatedConvBlock_widths_truncate (er cr : ℚ) (dim : ℕ)
    (her : 0 ≤ er) (hcr : 0 ≤ cr) :
    (gcbHidden er dim = ⌊er * (dim : ℚ)⌋ ∧
      ((gcbHidden er dim : ℚ)) ≤ er * dim ∧
      er * dim < gcbHidden er dim + 1) ∧
    (gcbConvChannels cr dim = ⌊cr * (dim : ℚ)⌋ ∧
      ((gcbConvChannels cr dim : ℚ)) ≤ cr * dim ∧
      cr * dim < gcbConvChannels cr dim + 1) := by
  have hme : 0 ≤ er * (dim : ℚ) := mul_nonneg her (Nat.cast_nonneg dim)
  have hmc : 0 ≤ cr * (dim : ℚ) := mul_nonneg hcr (Nat.cast_nonneg dim)
  have he : gcbHidden er dim = ⌊er * (dim : ℚ)⌋ := pyInt_nonneg_eq_floor hme
  have hc : gcbConvChannels cr dim = ⌊cr * (dim : ℚ)⌋ := pyInt_nonneg_eq_floor hmc
  refine ⟨⟨he, ?_, ?_⟩, ⟨hc, ?_, ?_⟩⟩
  · rw [he]; exact Int.floor_le _
  · rw [he]; exact Int.lt_floor_add_one _
  · rw [hc]; exact Int.floor_le _
  · rw [hc]; exact Int.lt_floor_add_one _

/-- Witness for C2's amended theorem at `expansion_ratio = 8/3`,
`conv_ratio = 1`, `dim = 3`. -/
theorem gatedConvBlock_widths_truncate_witness :
    (gcbHidden (8 / 3) 3 = ⌊(8 / 3 : ℚ) * ((3 : ℕ) : ℚ)⌋ ∧
      ((gcbHidden (8 / 3) 3 : ℚ)) ≤ (8 / 3 : ℚ) * (3 : ℕ) ∧
      (8 / 3 : ℚ) * (3 : ℕ) < gcbHidden (8 / 3) 3 + 1) ∧
    (gcbConvChannels 1 3 = ⌊(1 : ℚ) * ((3 : ℕ) : ℚ)⌋ ∧
      ((gcbConvChannels 1 3 : ℚ)) ≤ (1 : ℚ) * (3 : ℕ) ∧
      (1 : ℚ) * (3 : ℕ) < gcbConvChannels 1 3 + 1) :=
  gatedConvBlock_widths_truncate (8 / 3) 1 3 (by norm_num) (by norm_num)

/-- `torch.linspace(0, r, steps)`: `steps` evenly spaced values from 0
to `r`; with `steps = 1` torch returns only the start point 0 —
mambaout.py line 298. -/
def linspaceQ (r : ℚ) (steps : ℕ) : List ℚ :=
  match steps with
  | 0 => []
  | 1 => [0]
  | (n + 2) => (List.range (n + 2)).map (fun (i : ℕ) => r * (i : ℚ) / ((n : ℚ) + 1))

/-- `tensor.split(sizes)`: consecutive slices of the given sizes —
mambaout.py line 298. -/
def splitSizes {α : Type} : List ℕ → List α → List (List α)
  | [], _ => []
  | n :: ns, xs => xs.take n :: splitSizes ns (xs.drop n)

/-- `dp_rates = [x.tolist() for x in
torch.linspace(0, drop_path_rate, sum(depths)).split(depths)]` —
mambaout.py line 298. -/
def dpRates (r : ℚ) (depths : List ℕ) : List (List ℚ) :=
  splitSizes depths (linspaceQ r depths.sum)

theorem length_linspaceQ (r : ℚ) (steps : ℕ) :
    (linspaceQ r steps).length = steps := by
  match steps with
  | 0 => rfl
  | 1 => rfl
  | (n + 2) =>
    simp only [linspaceQ]
    rw [List.length_map, List.length_range]

theorem flatten_splitSizes {α : Type} (ns : List ℕ) (xs : List α)
    (h : ns.sum = xs.length) : (splitSizes ns xs).flatten = xs := by
  induction ns generalizing xs with
  | nil =>
    simp only [List.sum_nil] at h
    simp [splitSizes, (List.length_eq_zero).mp h.symm]
  | cons n ns ih =>
    simp only [List.sum_cons] at h
    have hlen : ns.sum = (xs.drop n).length := by
      simp only [List.length_drop]; omega
    simp only [splitSizes, List.flatten_cons, ih (xs.drop n) hlen]
    exact List.take_append_drop n xs

theorem map_length_splitSizes {α : Type} (ns : List ℕ) (xs : List α)
    (h : ns.sum = xs.length) :
    (splitSizes ns xs).map List.length = ns := by
  induction ns generalizing xs with
  | nil => simp [splitSizes]
  | cons n ns ih =>
    simp only [List.sum_cons] at h
    have hlen : ns.sum = (xs.drop n).length := by
      simp only [List.length_drop]; omega
    simp only [splitSizes, List.map_cons, ih (xs.drop n) hlen,
      List.length_take]
    congr 1
    omega

theorem pairwise_le_linspaceQ (r : ℚ) (steps : ℕ) (hr : 0 ≤ r) :
    List.Pairwise (· ≤ ·) (linspaceQ r steps) := by
  match steps with
  | 0 => simp [linspaceQ]
  | 1 => simp [linspaceQ]
  | (n + 2) =>
    simp only [linspaceQ, List.pairwise_map]
    refine List.Pairwise.imp ?_ (List.pairwise_lt_range (n + 2))
    intro a b hab
    have hcast : (a : ℚ) ≤ (b : ℚ) := by exact_mod_cast hab.le
    gcongr

theorem head_linspaceQ (r : ℚ) (steps : ℕ) (h : 1 ≤ steps) :
    (linspaceQ r steps).head? = some 0 := by
  cases steps with
  | zero => omega
  | succ m =>
    cases m with
    | zero => rfl
    | succ n =>
      simp only [linspaceQ, List.range_succ_eq_map, List.map_cons,
        List.head?_cons]
      norm_num

theorem getLast_linspaceQ (r : ℚ) (n : ℕ) :
    (linspaceQ r (n + 2)).getLast? = some r := by
  have hne : ((n : ℚ) + 1) ≠ 0 := by positivity
  simp only [linspaceQ]
  rw [show n + 2 = (n + 1) + 1 from rfl, List.range_succ, List.map_append,
    List.map_singleton, List.getLast?_concat]
  congr 1
  push_cast
  rw [mul_div_assoc, div_self hne, mul_one]

/-- Claim C3 (amended): for every network with per-stage depths summing
to total block count `T ≥ 1` and maximum drop-path rate `R ≥ 0`, the
flattened schedule has `T` entries, is non-decreasing, starts at 0, and
concatenating the per-stage slices (stage order, block order within
stage) reproduces the exact flattened sequence, the slice for each
stage having exactly that stage's depth; the last entry equals `R` when
`T ≥ 2`, but when `T = 1` the schedule is the single value 0 (torch's
`linspace(0, R, 1)` returns only the start point, so `R` is not
attained). -/
theorem mambaOut_dpSchedule (r : ℚ) (depths : List ℕ) (hr : 0 ≤ r)
    (hne : depths ≠ []) (hpos : ∀ d ∈ depths, 0 < d) :
    (linspaceQ r depths.sum).length = depths.sum ∧
    List.Pairwise (· ≤ ·) (linspaceQ r depths.sum) ∧
    (linspaceQ r depths.sum).head? = some 0 ∧
    (2 ≤ depths.sum → (linspaceQ r depths.sum).getLast? = some r) ∧
    (depths.sum = 1 → linspaceQ r depths.sum = [0]) ∧
    (dpRates r depths).flatten = linspaceQ r depths.sum ∧
    (dpRates r depths).map List.length = depths := by
  have hsum : 1 ≤ depths.sum := by
    match depths, hne with
    | d :: ds, _ =>
      have hd : 0 < d := hpos d (List.mem_cons_self d ds)
      simp only [List.sum_cons]
      omega
  refine ⟨length_linspaceQ r depths.sum, pairwise_le_linspaceQ r depths.sum hr,
    head_linspaceQ r depths.sum hsum, ?_, ?_, ?_, ?_⟩
  · intro h2
    obtain ⟨n, hn⟩ : ∃ n, depths.sum = n + 2 := ⟨depths.sum - 2, by omega⟩
    rw [hn]
    exact getLast_linspaceQ r n
  · intro h1
    rw [h1]
    rfl
  · exact flatten_splitSizes depths _ (length_linspaceQ r depths.sum).symm
  · exact map_length_splitSizes depths _ (length_linspaceQ r depths.sum).symm

/-- Witness for C3's amended theorem: `R = 1/2`, `depths = [1, 2]`,
so `T = 3` and the schedule is `[0, 1/4, 1/2]`, split into `[[0],
[1/4, 1/2]]`. -/
theorem mambaOut_dpSchedule_witness :
    (linspaceQ (1 / 2) ([1, 2] : List ℕ).sum).length = ([1, 2] : List ℕ).sum ∧
    List.Pairwise (· ≤ ·) (linspaceQ (1 / 2) ([1, 2] : List ℕ).sum) ∧
    (linspaceQ (1 / 2) ([1, 2] : List ℕ).sum).head? = some 0 ∧
    (2 ≤ ([1, 2] : List ℕ).sum →
      (linspaceQ (1 / 2) ([1, 2] : List ℕ).sum).getLast? = some (1 / 2)) ∧
    (([1, 2] : List ℕ).sum = 1 → linspaceQ (1 / 2) ([1, 2] : List ℕ).sum = [0]) ∧
    (dpRates (1 / 2) [1, 2]).flatten = linspaceQ (1 / 2) ([1, 2] : List ℕ).sum ∧
    (dpRates (1 / 2) [1, 2]).map List.length = [1, 2] :=
  mambaOut_dpSchedule (1 / 2) [1, 2] (by norm_num) (by simp)
    (by intro d hd; fin_cases hd <;> norm_num)

/-- Claim C3, counterexample: a network with a single block
(`T = sum(depths) = 1`) and maximum rate `R = 1` gets the schedule
`[0]`: `torch.linspace(0, R, 1)` returns only the start point, so the
schedule does not reach `R` and is not "from 0 to R inclusive". -/
theorem dpSchedule_T1_counterexample :
    linspaceQ 1 1 = [0] ∧ ¬ ((1 : ℚ) ∈ linspaceQ 1 1) := by
  constructor
  · rfl
  · intro h
    simp only [linspaceQ, List.mem_singleton] at h
    norm_num at h

/-- The tensor operators a `GatedConvBlock` owns (mambaout.py lines
170-186), abstracted over the tensor type: `norm`, `fc1`, the channel
split, the activation, the depthwise convolution (with its two layout
permutes), the concatenation, `fc2`, the `LayerScale(dim)` module and
the `DropPath(rate)` module family. -/
structure GCBOps (T : Type) where
  norm : T → T
  fc1 : T → T
  split : T → T × T × T
  act : T → T
  conv : T → T
  cat : T → T → T
  fc2 : T → T
  layerScale : T → T
  dropPathFn : ℚ → T → T

/-- `self.ls = LayerScale(dim) if ls_init_value is not None else
nn.Identity()` — mambaout.py line 185.  Only the `None`-ness of
`ls_init_value` is consulted; the numeric value is not passed on. -/
def gcbLs {T : Type} (lsInitValue : Option ℚ) (layerScale : T → T) : T → T :=
  match lsInitValue with
  | some _ => layerScale
  | none => id

/-- `self.drop_path = DropPath(drop_path) if drop_path > 0. else
nn.Identity()` — mambaout.py line 186. -/
def gcbDropPath {T : Type} (dropPath : ℚ) (dropPathFn : ℚ → T → T) : T → T :=
  if 0 < dropPath then dropPathFn dropPath else id

/-- `GatedConvBlock.forward` — mambaout.py lines 188-199.  The two
layout permutes around the convolution are absorbed into `conv`. -/
def gcbForward {T : Type} [Add T] [Mul T] (ops : GCBOps T)
    (lsInitValue : Option ℚ) (dropPath : ℚ) (x : T) : T :=
  let shortcut := x
  let x1 := ops.norm x
  let x2 := ops.fc1 x1
  let gic := ops.split x2
  let c1 := ops.conv gic.2.2
  let x3 := ops.fc2 (ops.act gic.1 * ops.cat gic.2.1 c1)
  let x4 := gcbLs lsInitValue ops.layerScale x3
  let x5 := gcbDropPath dropPath ops.dropPathFn x4
  x5 + shortcut

/-- Claim C4: a `GatedConvBlock` built with drop-path rate 0 and no
layer-scale value (`ls_init_value = None`) computes exactly
`shortcut + fc2(act(gate) * cat(identity-part, conv(conv-part)))`:
both the layer-scale step and the stochastic-depth step are the
identity, and no extra scaling is applied. -/
theorem gatedConvBlock_residual_exact {T : Type} [AddCommMonoid T] [Mul T]
    (ops : GCBOps T) (x : T) :
    gcbForward ops none 0 x =
      x + ops.fc2 (ops.act (ops.split (ops.fc1 (ops.norm x))).1 *
        ops.cat (ops.split (ops.fc1 (ops.norm x))).2.1
          (ops.conv (ops.split (ops.fc1 (ops.norm x))).2.2)) := by
  simp only [gcbForward, gcbLs, gcbDropPath]
  rw [if_neg (lt_irrefl (0 : ℚ))]
  exact add_comm _ _

/-- The layer-scale module a `GatedConvBlock` constructs: line 185
passes only `dim` to `LayerScale`, never the configured value. -/
inductive LsModule where
  | layerScale (dim : ℕ)
  | identity
deriving DecidableEq

/-- Construction of the `ls` attribute — mambaout.py line 185. -/
def gcbLsModule (dim : ℕ) (lsInitValue : Option ℚ) : LsModule :=
  match lsInitValue with
  | some _ => .layerScale dim
  | none => .identity

/-- Claim C9: two `GatedConvBlock` constructions that differ only in
the numeric value of a non-`None` `ls_init_value` build the same
layer-scale module (`LayerScale(dim)`, the value never being passed
on), and their forward functions agree on every input. -/
theorem gatedConvBlock_ls_value_ignored (dim : ℕ) (v1 v2 : ℚ) :
    gcbLsModule dim (some v1) = gcbLsModule dim (some v2) ∧
    (∀ (T : Type) [Add T] [Mul T] (ops : GCBOps T) (dp : ℚ) (x : T),
      gcbForward ops (some v1) dp x = gcbForward ops (some v2) dp x) := by
  exact ⟨rfl, fun T _ _ ops dp x => rfl⟩

/-- The downsample modules mambaout.py defines: `Downsample`
(convolve-then-normalize, lines 92-115), `DownsampleNormFirst`
(normalize-first, lines 66-89), and `nn.Identity()`. -/
inductive DownsampleModule where
  | convThenNorm (inChs outChs : ℕ)
  | normFirst (inChs outChs : ℕ)
  | identity
deriving DecidableEq

def isNormFirst : DownsampleModule → Bool
  | .normFirst _ _ => true
  | _ => false

/-- The downsample attribute `MambaOutStage.__init__` builds —
mambaout.py lines 222-226: `Downsample(dim, dim_out)` when the flag is
set, `nn.Identity()` otherwise.  `DownsampleNormFirst` is not reachable
from here. -/
def mambaOutStageDownsample (downsample : Bool) (dim dimOut : ℕ) :
    DownsampleModule :=
  if downsample then .convThenNorm dim dimOut else .identity

/-- The downsample modules of the stages `MambaOut.__init__` builds —
mambaout.py lines 301-315: stage `i` receives `downsample = i > 0`,
input width `dims[i-1]` (or `dims[0]` for the first stage) and output
width `dims[i]`.  No constructor parameter selects a different
ordering. -/
def mambaOutDownsampleModules (dims : List ℕ) : List DownsampleModule :=
  (List.range dims.length).map (fun i =>
    mambaOutStageDownsample (decide (0 < i)) (dims.getD (i - 1) 0) (dims.getD i 0))

theorem stageDownsample_never_normFirst (b : Bool) (dIn dOut : ℕ) :
    isNormFirst (mambaOutStageDownsample b dIn dOut) = false := by
  cases b <;> rfl

/-- Claim C6, counterexample: at concrete widths, both values of the
only selector that reaches the stage's downsample choice (the
`downsample` flag) produce a module other than `DownsampleNormFirst`,
and a network built like `mambaout_tiny` (`dims = [96, 192, 384, 576]`)
contains no normalize-first downsample module — the normalize-first
ordering is not selectable. -/
theorem downsample_order_not_selectable_counterexample :
    isNormFirst (mambaOutStageDownsample true 96 192) = false ∧
    isNormFirst (mambaOutStageDownsample false 96 96) = false ∧
    ((mambaOutDownsampleModules [96, 192, 384, 576]).all
      (fun m => !(isNormFirst m))) = true := by
  decide

/-- Claim C6 (amended): mambaout.py defines both downsample orderings
as modules, but no network-level construction choice reaches
`DownsampleNormFirst`: every stage of every constructed network uses
either `Downsample` (convolve-then-normalize) or the identity. -/
theorem mambaOut_downsample_never_normFirst (dims : List ℕ) :
    ((mambaOutDownsampleModules dims).all (fun m => !(isNormFirst m))) = true ∧
    (∀ (b : Bool) (dIn dOut : ℕ),
      isNormFirst (mambaOutStageDownsample b dIn dOut) = false) := by
  constructor
  · rw [List.all_eq_true]
    intro m hm
    rw [mambaOutDownsampleModules, List.mem_map] at hm
    obtain ⟨i, _, rfl⟩ := hm
    rw [stageDownsample_never_normFirst]
    rfl
  · exact stageDownsample_never_normFirst

/-- What a stage stores after construction: its downsample module and
the per-block drop-path rates of its block sequence. -/
structure MambaOutStageModel where
  downsampleModule : DownsampleModule
  blockDropPaths : List ℚ
deriving DecidableEq

/-- Python `dim_out = dim_out or dim` — mambaout.py line 219 (`or`
treats both `None` and `0` as falsy). -/
def pyOrNat (dimOut? : Option ℕ) (dim : ℕ) : ℕ :=
  match dimOut? with
  | none => dim
  | some d => if d = 0 then dim else d

/-- The `drop_path` argument of a stage: a scalar or a per-block list. -/
inductive DropPathArg where
  | scalar (r : ℚ)
  | ofList (rs : List ℚ)
deriving DecidableEq

/-- `drop_path[j] if isinstance(drop_path, (list, tuple)) else
drop_path` — mambaout.py line 237. -/
def dropPathAt (arg : DropPathArg) (j : ℕ) : ℚ :=
  match arg with
  | .scalar r => r
  | .ofList rs => rs.getD j 0

/-- `MambaOutStage.__init__` — mambaout.py lines 218-240.  With the
downsample flag unset, `assert dim == dim_out` makes construction fail
(`none`) on unequal widths; otherwise the stage keeps an identity
pre-block step (`nn.Identity()`) or a `Downsample(dim, dim_out)`. -/
def mambaOutStageInit (dim : ℕ) (dimOut? : Option ℕ) (depth : ℕ)
    (downsample : Bool) (dropPath : DropPathArg) :
    Option MambaOutStageModel :=
  let dimOut := pyOrNat dimOut? dim
  if downsample then
    some ⟨.convThenNorm dim dimOut, (List.range depth).map (dropPathAt dropPath)⟩
  else if dim = dimOut then
    some ⟨.identity, (List.range depth).map (dropPathAt dropPath)⟩
  else none

/-- `MambaOutStage.forward` applies the stored downsample module before
the blocks — mambaout.py lines 242-248; the identity variant passes the
input through unchanged. -/
def applyDownsample {T : Type} (m : DownsampleModule)
    (convFn normFirstFn : ℕ → ℕ → T → T) (x : T) : T :=
  match m with
  | .convThenNorm i o => convFn i o x
  | .normFirst i o => normFirstFn i o x
  | .identity => x

/-- Claim C8: with downsampling disabled, stage construction fails
exactly when the declared (nonzero) output width differs from the input
width; when they agree the pre-block step is the identity (the input
reaches the block sequence unchanged); with downsampling enabled,
construction succeeds for every width pair. -/
theorem mambaOutStage_dim_assert (dim d depth : ℕ) (dp : DropPathArg)
    (hd : 0 < d) :
    (d ≠ dim → mambaOutStageInit dim (some d) depth false dp = none) ∧
    (d = dim →
      ∃ s, mambaOutStageInit dim (some d) depth false dp = some s ∧
        s.downsampleModule = .identity ∧
        (∀ (T : Type) (f g : ℕ → ℕ → T → T) (x : T),
          applyDownsample s.downsampleModule f g x = x)) ∧
    (mambaOutStageInit dim (some d) depth true dp).isSome = true := by
  have hpy : pyOrNat (some d) dim = d := by
    simp [pyOrNat, Nat.pos_iff_ne_zero.mp hd]
  refine ⟨?_, ?_, ?_⟩
  · intro hne
    simp [mambaOutStageInit, hpy, Ne.symm hne]
  · intro heq
    subst heq
    refine ⟨⟨.identity, (List.range depth).map (dropPathAt dp)⟩, ?_, rfl, ?_⟩
    · simp [mambaOutStageInit, hpy]
    · intro T f g x
      rfl
  · simp [mambaOutStageInit, hpy]

/-- Witness for C8 at `dim = 3`, declared output width 5, depth 2,
scalar drop-path 0. -/
theorem mambaOutStage_dim_assert_witness :
    (5 ≠ 3 → mambaOutStageInit 3 (some 5) 2 false (.scalar 0) = none) ∧
    (5 = 3 →
      ∃ s, mambaOutStageInit 3 (some 5) 2 false (.scalar 0) = some s ∧
        s.downsampleModule = .identity ∧
        (∀ (T : Type) (f g : ℕ → ℕ → T → T) (x : T),
          applyDownsample s.downsampleModule f g x = x)) ∧
    (mambaOutStageInit 3 (some 5) 2 true (.scalar 0)).isSome = true :=
  mambaOutStage_dim_assert 3 5 2 (.scalar 0) (by norm_num)

/-- The tensor operators a `Stem` owns (mambaout.py lines 26-51):
two strided convolutions, the candidate mid-normalization, the
activation and the final normalization. -/
structure StemOps (T : Type) where
  conv1 : T → T
  normMid : T → T
  act : T → T
  conv2 : T → T
  norm2 : T → T

/-- What a `Stem` stores: `self.norm1 = norm_layer(out_chs // 2) if
mid_norm else None` — mambaout.py line 42. -/
structure StemModel (T : Type) where
  conv1 : T → T
  norm1 : Option (T → T)
  act : T → T
  conv2 : T → T
  norm2 : T → T

/-- `Stem.__init__` — mambaout.py lines 26-51. -/
def stemInit {T : Type} (ops : StemOps T) (midNorm : Bool) : StemModel T :=
  ⟨ops.conv1, if midNorm then some ops.normMid else none, ops.act,
    ops.conv2, ops.norm2⟩

/-- `Stem.forward` — mambaout.py lines 53-63 (the permutes around
`norm1` and before `norm2` are layout only and absorbed into the
operators). -/
def stemForward {T : Type} (s : StemModel T) (x : T) : T :=
  let x1 := s.conv1 x
  let x2 := match s.norm1 with
    | some f => f x1
    | none => x1
  s.norm2 (s.conv2 (s.act x2))

/-- `MambaOut.__init__` builds its stem as
`Stem(in_chans, dims[0], act_layer=act_layer, norm_layer=norm_layer)`
— mambaout.py line 296: `mid_norm` is not forwarded, so the default
`True` (line 30) always applies. -/
def mambaOutStemInit {T : Type} (ops : StemOps T) : StemModel T :=
  stemInit ops true

/-- Claim C10: every `MambaOut` network's stem has its
mid-normalization enabled — the construction at line 296 never forwards
a `mid_norm` flag, so `norm1` is always present and is applied between
the two stem convolutions. -/
theorem mambaOut_stem_midNorm_always_on {T : Type} (ops : StemOps T) (x : T) :
    (mambaOutStemInit ops).norm1.isSome = true ∧
    stemForward (mambaOutStemInit ops) x =
      ops.norm2 (ops.conv2 (ops.act (ops.normMid (ops.conv1 x)))) :=
  ⟨rfl, rfl⟩

/-- Output size of a 2D convolution along one spatial axis:
`(n + 2*padding - kernel) / stride + 1`. -/
def convOut (n k s p : ℕ) : ℕ :=
  (n + 2 * p - k) / s + 1

theorem convOut_odd_stride1 (k n : ℕ) (hk : k % 2 = 1) (hn : 0 < n) :
    convOut n k 1 (k / 2) = n := by
  unfold convOut
  omega

theorem convOut_even_stride2 (n : ℕ) (hn : 0 < n) (he : n % 2 = 0) :
    convOut n 3 2 1 = n / 2 := by
  unfold convOut
  omega

/-- The channel widths through `GatedConvBlock.forward` (mambaout.py
lines 188-199) with the validity conditions of the torch operators:
`norm`/`fc1` need the block's declared width, `torch.split` needs
nonnegative sizes summing to the `fc1` output width `2*hidden`, the
depthwise convolution needs a positive group count
(`groups = conv_channels`), the gating multiplication needs the gate
and the concatenation to agree in width, and `fc2` maps `hidden` to
`dim`.  `none` when an operator would reject. -/
def gcbChannelsOut (er cr : ℚ) (dim cin : ℕ) : Option ℕ :=
  if cin = dim then
    let h := gcbHidden er dim
    let cc := gcbConvChannels cr dim
    let g := h
    let i := h - cc
    let c := cc
    if 0 ≤ i ∧ 0 ≤ c ∧ g + i + c = 2 * h then
      if 1 ≤ c then
        if g = i + c then some dim else none
      else none
    else none
  else none

/-- Claim C7, counterexample: with the default
`expansion_ratio = 8/3` and `conv_ratio = 1.0` at `dim = 3`, the
identity-part size is `hidden - conv_channels = 8 - 3 = 5`, not 0: with
the default expansion ratio, `conv_ratio = 1.0` does not degenerate the
identity slice. -/
theorem gatedConvBlock_convRatio1_identity_counterexample :
    (gcbSplitIndices (8 / 3) 1 3).2.1 = 5 ∧ (5 : ℤ) ≠ 0 := by
  constructor
  · norm_num [gcbSplitIndices, gcbHidden, gcbConvChannels, pyInt]
  · norm_num

/-- Claim C7 (amended): for every `conv_ratio ≤ expansion_ratio` whose
`conv_channels = int(conv_ratio * dim)` is at least 1 (a depthwise
convolution needs a positive group count) — `conv_ratio = 1.0`
included, where the identity slice has width `hidden - dim`, zero
precisely when `hidden = dim` — the forward pass is well-defined
through the one code path: every operator's validity condition holds,
the zero-or-positive-width identity slice and the concatenation are
accepted, the output channel width equals the input width `dim`, and
with an odd kernel the spatial dimensions are preserved. -/
theorem gatedConvBlock_shape_preserved (er cr : ℚ) (dim k h w : ℕ)
    (hle : cr ≤ er) (hcc : 1 ≤ gcbConvChannels cr dim)
    (hk : k % 2 = 1) (hh : 0 < h) (hw : 0 < w) :
    gcbChannelsOut er cr dim dim = some dim ∧
    convOut h k 1 (k / 2) = h ∧ convOut w k 1 (k / 2) = w := by
  have hcd : 0 ≤ cr * (dim : ℚ) := by
    by_contra hneg
    push_neg at hneg
    have : gcbConvChannels cr dim ≤ 0 := by
      rw [gcbConvChannels, pyInt, if_neg (not_le.mpr hneg)]
      exact Int.ceil_le.mpr (by exact_mod_cast hneg.le)
    omega
  have hcc_le_h : gcbConvChannels cr dim ≤ gcbHidden er dim :=
    pyInt_mono hcd (mul_le_mul_of_nonneg_right hle (Nat.cast_nonneg dim))
  refine ⟨?_, convOut_odd_stride1 k h hk hh, convOut_odd_stride1 k w hk hw⟩
  have h1 : (0 : ℤ) ≤ gcbHidden er dim - gcbConvChannels cr dim := by omega
  have h2 : (0 : ℤ) ≤ gcbConvChannels cr dim := by omega
  have h3 : gcbHidden er dim + (gcbHidden er dim - gcbConvChannels cr dim) +
      gcbConvChannels cr dim = 2 * gcbHidden er dim := by ring
  have h4 : gcbHidden er dim =
      (gcbHidden er dim - gcbConvChannels cr dim) + gcbConvChannels cr dim := by
    ring
  simp only [gcbChannelsOut, if_pos rfl]
  rw [if_pos trivial,
    if_pos (show (0 : ℤ) ≤ gcbHidden er dim - gcbConvChannels cr dim ∧
        (0 : ℤ) ≤ gcbConvChannels cr dim ∧
        gcbHidden er dim + (gcbHidden er dim - gcbConvChannels cr dim) +
          gcbConvChannels cr dim = 2 * gcbHidden er dim from ⟨h1, h2, h3⟩),
    if_pos hcc, if_pos h4]

/-- Witness for C7's amended theorem: the default block
(`expansion_ratio = 8/3`, `conv_ratio = 1`, kernel 7) at `dim = 3` on a
5×5 feature map. -/
theorem gatedConvBlock_shape_preserved_witness :
    gcbChannelsOut (8 / 3) 1 3 3 = some 3 ∧
    convOut 5 7 1 (7 / 2) = 5 ∧ convOut 5 7 1 (7 / 2) = 5 := by
  refine gatedConvBlock_shape_preserved (8 / 3) 1 3 7 5 5
    (by norm_num) ?_ (by norm_num) (by norm_num) (by norm_num)
  have : gcbConvChannels 1 3 = 3 := by
    norm_num [gcbConvChannels, pyInt]
  omega

/-- Shape `(h, w, c)` transport of `Stem.forward` — mambaout.py lines
53-63: two convolutions with kernel 3, stride 2, padding 1, output
width `out_chs`. -/
def stemShape (outChs : ℕ) (s : ℕ × ℕ × ℕ) : ℕ × ℕ × ℕ :=
  (convOut (convOut s.1 3 2 1) 3 2 1, convOut (convOut s.2.1 3 2 1) 3 2 1,
    outChs)

/-- Shape transport of `GatedConvBlock.forward` — mambaout.py lines
188-199: the depthwise convolution (kernel `k`, stride 1, padding
`k / 2`) sets the spatial dims, `fc2` sets the channel width to `dim`. -/
def gcbShape (k dim : ℕ) (s : ℕ × ℕ × ℕ) : ℕ × ℕ × ℕ :=
  (convOut s.1 k 1 (k / 2), convOut s.2.1 k 1 (k / 2), dim)

/-- Shape transport of `Downsample.forward` — mambaout.py lines
110-115: one convolution with kernel 3, stride 2, padding 1, output
width `outChs`. -/
def downsampleShape (outChs : ℕ) (s : ℕ × ℕ × ℕ) : ℕ × ℕ × ℕ :=
  (convOut s.1 3 2 1, convOut s.2.1 3 2 1, outChs)

/-- Shape transport of `MambaOutStage.forward` — mambaout.py lines
242-248: the optional downsample, then `depth` blocks. -/
def stageShape (k dim depth : ℕ) (down : Bool) (s : ℕ × ℕ × ℕ) :
    ℕ × ℕ × ℕ :=
  (gcbShape k dim)^[depth] (if down then downsampleShape dim s else s)

/-- Shape transport of the stage sequence, one `(dim, depth,
downsample)` entry per stage. -/
def stagesShape (k : ℕ) : List (ℕ × ℕ × Bool) → (ℕ × ℕ × ℕ) → ℕ × ℕ × ℕ
  | [], s => s
  | (dim, depth, down) :: rest, s =>
    stagesShape k rest (stageShape k dim depth down s)

/-- The per-stage `(dim, depth, downsample)` tuples `MambaOut.__init__`
builds — mambaout.py lines 301-315: `downsample = i > 0`. -/
def mambaStageSpecs : List ℕ → List ℕ → List (ℕ × ℕ × Bool)
  | d :: ds, p :: ps =>
    (d, p, false) :: (List.zip ds ps).map (fun x => (x.1, x.2, true))
  | _, _ => []

/-- Shape transport of `MambaOut.forward_features` — mambaout.py lines
335-339: the stem, then every stage in order. -/
def forwardFeaturesShape (k : ℕ) (dims depths : List ℕ)
    (s : ℕ × ℕ × ℕ) : ℕ × ℕ × ℕ :=
  stagesShape k (mambaStageSpecs dims depths) (stemShape (dims.getD 0 0) s)

theorem gcbShape_fixed (k dim n h w : ℕ) (hk : k % 2 = 1) (hh : 0 < h)
    (hw : 0 < w) : (gcbShape k dim)^[n] (h, w, dim) = (h, w, dim) := by
  induction n with
  | zero => rfl
  | succ m ih =>
    rw [Function.iterate_succ_apply]
    have hstep : gcbShape k dim (h, w, dim) = (h, w, dim) := by
      simp [gcbShape, convOut_odd_stride1 k h hk hh,
        convOut_odd_stride1 k w hk hw]
    rw [hstep]
    exact ih

theorem stagesShape_tail (k : ℕ) (specs : List (ℕ × ℕ)) (hk : k % 2 = 1) :
    ∀ (h w c : ℕ), 2 ^ specs.length ∣ h → 2 ^ specs.length ∣ w →
    0 < h → 0 < w →
    stagesShape k (specs.map (fun x => (x.1, x.2, true))) (h, w, c) =
      (h / 2 ^ specs.length, w / 2 ^ specs.length,
        (specs.map Prod.fst).getLastD c) := by
  induction specs with
  | nil =>
    intro h w c _ _ _ _
    simp [stagesShape]
  | cons x xs ih =>
    intro h w c hdh hdw hh hw
    obtain ⟨dim, depth⟩ := x
    have hEpos : 0 < 2 ^ xs.length := pow_pos (by norm_num) xs.length
    have hpow : (2 : ℕ) ^ (xs.length + 1) = 2 * 2 ^ xs.length := by
      rw [pow_succ]; ring
    rw [List.length_cons, hpow] at hdh hdw
    obtain ⟨mh, hmh⟩ := hdh
    obtain ⟨mw, hmw⟩ := hdw
    have hmh2 : h = 2 * (2 ^ xs.length * mh) := by rw [hmh]; ring
    have hmw2 : w = 2 * (2 ^ xs.length * mw) := by rw [hmw]; ring
    have hh2 : h / 2 = 2 ^ xs.length * mh := by omega
    have hw2 : w / 2 = 2 ^ xs.length * mw := by omega
    have hh2pos : 0 < h / 2 := by
      have : 0 < 2 ^ xs.length * mh := by omega
      omega
    have hw2pos : 0 < w / 2 := by
      have : 0 < 2 ^ xs.length * mw := by omega
      omega
    simp only [List.map_cons, stagesShape]
    have hstage : stageShape k dim depth true (h, w, c) = (h / 2, w / 2, dim) := by
      unfold stageShape
      rw [if_pos rfl]
      have hds : downsampleShape dim (h, w, c) = (h / 2, w / 2, dim) := by
        unfold downsampleShape
        rw [convOut_even_stride2 h hh (by omega),
          convOut_even_stride2 w hw (by omega)]
      rw [hds]
      exact gcbShape_fixed k dim depth (h / 2) (w / 2) hk hh2pos hw2pos
    rw [hstage, ih (h / 2) (w / 2) dim ⟨mh, hh2⟩ ⟨mw, hw2⟩ hh2pos hw2pos]
    rw [Nat.div_div_eq_div_mul, Nat.div_div_eq_div_mul]
    rw [List.length_cons, hpow, List.getLastD_cons]

/-- Claim C5: for every valid network spec (`num_stages ≥ 1`,
per-stage widths `dims`, per-stage depths of matching length, odd
kernel) and every input whose spatial dims are positive and divisible
by the cumulative stride `4 * 2 ^ (num_stages - 1)` (4 from the stem,
2 from each later stage's downsample), the `forward_features` output
has channel width equal to the last stage's width and spatial dims
equal to the input spatial dims divided by the cumulative stride. -/
theorem mambaOut_forwardFeatures_shape (k : ℕ) (dims depths : List ℕ)
    (h w c : ℕ) (hk : k % 2 = 1) (hne : dims ≠ [])
    (hlen : depths.length = dims.length)
    (hdh : 4 * 2 ^ (dims.length - 1) ∣ h)
    (hdw : 4 * 2 ^ (dims.length - 1) ∣ w) (hh : 0 < h) (hw : 0 < w) :
    forwardFeaturesShape k dims depths (h, w, c) =
      (h / (4 * 2 ^ (dims.length - 1)), w / (4 * 2 ^ (dims.length - 1)),
        dims.getLastD 0) := by
  cases dims with
  | nil => exact absurd rfl hne
  | cons d0 ds =>
    cases depths with
    | nil => simp at hlen
    | cons p0 ps =>
      have hps : ps.length = ds.length := by simpa using hlen
      simp only [List.length_cons, Nat.add_sub_cancel] at hdh hdw ⊢
      have hEpos : 0 < 2 ^ ds.length := pow_pos (by norm_num) ds.length
      obtain ⟨mh, hmh⟩ := hdh
      obtain ⟨mw, hmw⟩ := hdw
      have hmh2 : h = 4 * (2 ^ ds.length * mh) := by rw [hmh]; ring
      have hmw2 : w = 4 * (2 ^ ds.length * mw) := by rw [hmw]; ring
      have hh4 : h / 4 = 2 ^ ds.length * mh := by omega
      have hw4 : w / 4 = 2 ^ ds.length * mw := by omega
      have hh4pos : 0 < h / 4 := by
        have : 0 < 2 ^ ds.length * mh := by omega
        omega
      have hw4pos : 0 < w / 4 := by
        have : 0 < 2 ^ ds.length * mw := by omega
        omega
      have hstem : stemShape d0 (h, w, c) = (h / 4, w / 4, d0) := by
        unfold stemShape
        rw [convOut_even_stride2 h hh (by omega),
          convOut_even_stride2 w hw (by omega)]
        rw [convOut_even_stride2 (h / 2) (by omega) (by omega),
          convOut_even_stride2 (w / 2) (by omega) (by omega)]
        rw [Nat.div_div_eq_div_mul, Nat.div_div_eq_div_mul]
      have hfirst : stageShape k d0 p0 false (h / 4, w / 4, d0) =
          (h / 4, w / 4, d0) := by
        unfold stageShape
        rw [if_neg (by simp)]
        exact gcbShape_fixed k d0 p0 (h / 4) (w / 4) hk hh4pos hw4pos
      have hzlen : (ds.zip ps).length = ds.length := by
        rw [List.length_zip]
        omega
      have hdiv_h : 2 ^ (ds.zip ps).length ∣ h / 4 := by
        rw [hzlen]
        exact ⟨mh, hh4⟩
      have hdiv_w : 2 ^ (ds.zip ps).length ∣ w / 4 := by
        rw [hzlen]
        exact ⟨mw, hw4⟩
      have htail := stagesShape_tail k (ds.zip ps) hk (h / 4) (w / 4) d0
        hdiv_h hdiv_w hh4pos hw4pos
      rw [hzlen] at htail
      unfold forwardFeaturesShape
      simp only [mambaStageSpecs, List.getD_cons_zero]
      rw [hstem]
      simp only [stagesShape]
      rw [hfirst, htail]
      rw [List.map_fst_zip ds ps (by omega)]
      rw [Nat.div_div_eq_div_mul, Nat.div_div_eq_div_mul,
        List.getLastD_cons]

/-- Witness for C5: kernel 7, `dims = [8, 16]`, `depths = [1, 1]` on a
32×32 input with 3 channels: the feature map is 4×4 (32 divided by the
cumulative stride 8) with 16 channels. -/
theorem mambaOut_forwardFeatures_shape_witness :
    forwardFeaturesShape 7 [8, 16] [1, 1] (32, 32, 3) =
      (32 / (4 * 2 ^ (([8, 16] : List ℕ).length - 1)),
        32 / (4 * 2 ^ (([8, 16] : List ℕ).length - 1)),
        ([8, 16] : List ℕ).getLastD 0) :=
  mambaOut_forwardFeatures_shape 7 [8, 16] [1, 1] 32 32 3
    (by norm_num) (by simp) (by simp) (by norm_num) (by norm_num)
    (by norm_num) (by norm_num)

end MambaOutModel
